import Mathlib

/-!
Verification of the reconciliation and batching engine of the seller-apis
repository (src/seller.py and src/market.py).

The two modules contain near-duplicate logic; wherever the cited lines are
verbatim duplicates (the matching/normalization passes of `create_stocks`,
the matching pass of `create_prices`, `divide`, the not-empty filter of
`upload_stocks`), a single Lean definition embeds both.  Where they differ
(the integer parse of prices present only in market.py's `create_prices`,
and the two different pagination loops of `get_offer_ids`) each variant is
embedded separately.

Modelling conventions for the shallow embedding:
  * Feed rows (`watch_remnants` dictionaries) are records of the three
    string fields the engine reads: "Код" (code), "Количество" (quantity),
    "Цена" (price).  Feed values are modelled as strings, so Python's
    `str(...)` wrapper is the identity.
  * Python exceptions (`ValueError` from `int`, i.e. the spec's
    InvalidQuantityFormat / InvalidPriceFormat) are modelled by `Option`:
    `none` is the raised error.
  * In-place mutation of the caller's `offer_ids` list (Python
    `list.remove`) is modelled by explicit state passing: `create_stocks`
    returns the final value of the `offer_ids` list alongside the stocks.
  * The unbounded `while True:` pagination loops are modelled with an
    explicit fuel parameter; `none` means the fuel was exhausted before the
    loop broke, so "the loop terminates" is "some fuel returns `some`".
-/

/-- Python whitespace characters stripped by `int(str)` before parsing. -/
def isPySpace (c : Char) : Bool :=
  c = ' ' || c = '\t' || c = '\n' || c = '\r' || c = '\x0b' || c = '\x0c'

/-- Numeric value of an ASCII digit character. -/
def digitVal (c : Char) : Nat := c.toNat - 48

/-- Digit-accumulation phase of Python's `int(str)`: consumes ASCII digits,
allowing single underscores between digits (Python 3 literal grouping),
returning `none` on any other character or a misplaced underscore. -/
def pyDigitsAux : Nat → List Char → Option Nat
  | acc, [] => some acc
  | acc, c :: cs =>
    if c.isDigit then pyDigitsAux (acc * 10 + digitVal c) cs
    else if c = '_' then
      match cs with
      | [] => none
      | d :: ds => if d.isDigit then pyDigitsAux (acc * 10 + digitVal d) ds else none
    else none

/-- Parse a nonempty digit group as Python's `int(str)` does after sign
handling; `none` models the `ValueError`. -/
def pyDigits : List Char → Option Nat
  | [] => none
  | c :: cs => if c.isDigit then pyDigitsAux (digitVal c) cs else none

/-- Strip leading and trailing Python whitespace, as `int(str)` does. -/
def pyStrip (cs : List Char) : List Char :=
  ((cs.dropWhile isPySpace).reverse.dropWhile isPySpace).reverse

/-- Sign handling of Python's `int(str)` after whitespace stripping. -/
def pyIntCore : List Char → Option Int
  | [] => none
  | c :: cs =>
    if c = '+' then (pyDigits cs).map Int.ofNat
    else if c = '-' then (pyDigits cs).map fun n => -(n : Int)
    else (pyDigits (c :: cs)).map Int.ofNat

/-- Python's built-in `int(s)` on a string, base 10: optional surrounding
whitespace, optional sign, then digits (with underscore grouping).
`none` models the raised `ValueError`. -/
def pyInt (s : String) : Option Int := pyIntCore (pyStrip s.toList)

/-- Quantity normalization, extracted verbatim from the matched branch of
`create_stocks` (seller.py lines 197-203 and market.py lines 164-170):
`">10"` maps to 100, `"1"` maps to 0, anything else is `int(...)`. -/
def normalizeQuantity (count : String) : Option Int :=
  if count = ">10" then some 100
  else if count = "1" then some 0
  else pyInt count

/-- One row of the remnants feed, holding the three fields the engine
reads: "Код", "Количество", "Цена". -/
structure Remnant where
  code : String
  quantity : String
  price : String
deriving DecidableEq, Repr

/-- One stock decision, as built by seller.py's `create_stocks`
(`{"offer_id": ..., "stock": ...}`).  market.py's `create_stocks` computes
the identical `(code, count)` pair and only wraps it in a different record
shape (`sku`/`warehouseId`/`items`), so this one record type embeds the
decision content of both modules. -/
structure Stock where
  offer_id : String
  stock : Int
deriving DecidableEq, Repr

/-- One price decision, as built by seller.py's `create_prices`.  The
constant fields (`auto_action_enabled`, `currency_code`, `old_price`) carry
no decision content and are omitted; `price` is the `price_conversion`
output string. -/
structure Price where
  offer_id : String
  price : String
deriving DecidableEq, Repr

/-- The matching pass of `create_stocks` (seller.py lines 194-205,
market.py lines 160-184): iterate the feed in order; a row whose code is in
the current `offer_ids` emits a decision with the normalized count and
removes the code from `offer_ids` (Python `list.remove`, i.e. first
occurrence, = `List.erase`).  Returns the matched decisions in feed order
together with the final state of `offer_ids`; `none` models the
`ValueError` raised by `int` on an unparsable matched quantity. -/
def stocksPass : List Remnant → List String → Option (List Stock × List String)
  | [], ids => some ([], ids)
  | w :: ws, ids =>
    if w.code ∈ ids then
      (normalizeQuantity w.quantity).bind fun st =>
        (stocksPass ws (ids.erase w.code)).map fun p =>
          (Stock.mk w.code st :: p.1, p.2)
    else stocksPass ws ids

/-- `create_stocks` (seller.py lines 173-209, market.py lines 143-200):
the matching pass, then a zero-stock decision for every offer id left in
the (mutated) `offer_ids`, in its order.  The second component is the
final value of the caller's `offer_ids` list, making the in-place
mutation explicit. -/
def create_stocks (watch_remnants : List Remnant) (offer_ids : List String) :
    Option (List Stock × List String) :=
  match stocksPass watch_remnants offer_ids with
  | none => none
  | some (m, rest) => some (m ++ rest.map (fun i => Stock.mk i 0), rest)

/-- The list before the first `.` with every non-ASCII-digit character
removed: `re.sub("[^0-9]", "", price.split(".")[0])` as a list of
characters (seller.py line 273). -/
def priceDigits (price : String) : List Char :=
  (price.toList.takeWhile (fun c => c ≠ '.')).filter Char.isDigit

/-- `price_conversion` (seller.py lines 248-273): returns the digit string;
note it returns a string and raises nothing itself. -/
def price_conversion (price : String) : String := (priceDigits price).asString

/-- The integer price used by market.py's `create_prices` (line 224):
`int(price_conversion(...))`; `none` models the `ValueError` when the digit
string is empty. -/
def market_price_value (price : String) : Option Int := pyInt (price_conversion price)

/-- `create_prices` (seller.py lines 212-245, market.py lines 203-233):
iterate the feed in order and emit one price decision per row whose code is
in `offer_ids`.  No id is ever removed from `offer_ids` and the list is not
mutated. -/
def create_prices : List Remnant → List String → List Price
  | [], _ => []
  | w :: ws, ids =>
    if w.code ∈ ids then Price.mk w.code (price_conversion w.price) :: create_prices ws ids
    else create_prices ws ids

/-- `divide` (seller.py lines 276-292): `for i in range(0, len(lst), n):
yield lst[i : i + n]`, i.e. successive slices of length `n`.  Python's
`range` with step 0 raises `ValueError`; the `n = 0` branch here returns
`[]` only to make the function total, and no theorem below uses it. -/
def divide (lst : List α) (n : Nat) : List (List α) :=
  if h : lst.length = 0 ∨ n = 0 then []
  else lst.take n :: divide (lst.drop n) n
termination_by lst.length
decreasing_by
  push_neg at h
  have h1 : 0 < lst.length := Nat.pos_of_ne_zero h.1
  have h2 : 0 < n := Nat.pos_of_ne_zero h.2
  simp only [List.length_drop]
  omega

/-- `upload_stocks` (seller.py lines 320-347, market.py lines 259-285) with
the external collaborators abstracted: `get_offer_ids` is replaced by the
`offer_ids` parameter it would return, and the per-batch `update_stocks`
HTTP calls touch no data.  Returns the `(not_empty, stocks)` pair of the
source. -/
def upload_stocks (watch_remnants : List Remnant) (offer_ids : List String) :
    Option (List Stock × List Stock) :=
  match create_stocks watch_remnants offer_ids with
  | none => none
  | some (stocks, _) => some (stocks.filter (fun s => s.stock != 0), stocks)

/-- One response of market.py's paginated catalog collaborator
(`get_product_list`): the shopSkus of the page's `offerMappingEntries`
(the loop accumulates entries and only later projects each to
`offer.shopSku`; the model carries the skus directly) and
`paging.nextPageToken`, where `""` models a falsy/absent token. -/
structure Page where
  entries : List String
  nextPageToken : String
deriving Repr

/-- The cursor sequence market.py's `get_offer_ids` sends to the
collaborator `f`: the first request carries `""`, each later request
carries the previous response's `nextPageToken`. -/
def cursorChain (f : String → Page) : Nat → String
  | 0 => ""
  | n + 1 => (f (cursorChain f n)).nextPageToken

/-- The `while True` loop of market.py's `get_offer_ids` (lines 129-136),
with fuel: request the page for the current token, append its entries, and
stop when the new `nextPageToken` is falsy.  `none` means the fuel ran out
before the loop broke. -/
def market_fetch (f : String → Page) : Nat → String → List String → Option (List String)
  | 0, _, _ => none
  | fuel + 1, tok, acc =>
    if (f tok).nextPageToken = "" then some (acc ++ (f tok).entries)
    else market_fetch f fuel (f tok).nextPageToken (acc ++ (f tok).entries)

/-- market.py's `get_offer_ids` (lines 115-140) against collaborator `f`,
with fuel. -/
def market_get_offer_ids (f : String → Page) (fuel : Nat) : Option (List String) :=
  market_fetch f fuel "" []

/-- One response of seller.py's paginated catalog collaborator
(`get_product_list`): the offer ids of the page's `items` (carried
directly, as for `Page`), the reported `total`, and `last_id` (the cursor;
`""` models an absent cursor). -/
structure SellerPage where
  items : List String
  total : Nat
  last_id : String
deriving Repr

/-- The `while True` loop of seller.py's `get_offer_ids` (lines 65-73),
with fuel: request the page for the current `last_id`, extend the
accumulated list, and stop when the reported `total` equals the accumulated
length — the cursor is threaded but never consulted for termination. -/
def seller_fetch (f : String → SellerPage) : Nat → String → List String → Option (List String)
  | 0, _, _ => none
  | fuel + 1, last_id, acc =>
    if (f last_id).total = (acc ++ (f last_id).items).length then
      some (acc ++ (f last_id).items)
    else seller_fetch f fuel (f last_id).last_id (acc ++ (f last_id).items)

/-- seller.py's `get_offer_ids` (lines 50-77) against collaborator `f`,
with fuel. -/
def seller_get_offer_ids (f : String → SellerPage) (fuel : Nat) : Option (List String) :=
  seller_fetch f fuel "" []

/-- A catalog collaborator that satisfies the spec's cursor contract in the
strongest way: every response signals end-of-list (absent next cursor,
`last_id = ""`) and carries no items, while reporting `total = 1`. -/
def badCatalog : String → SellerPage := fun _ => SellerPage.mk [] 1 ""

/-- The pagination loop of seller.py's `get_offer_ids` diverges on `f`:
no amount of fuel makes it return. -/
def sellerLoopDiverges (f : String → SellerPage) : Prop :=
  ∀ fuel, seller_get_offer_ids f fuel = none

/-- A two-page demonstration catalog for market.py's pagination: the start
cursor yields entries `a`, `b` and cursor `"n"`; any other cursor yields
entry `c` and signals end of list. -/
def demoCatalog : String → Page := fun t =>
  if t = "" then Page.mk ["a", "b"] "n" else Page.mk ["c"] ""

/-- Destructure a successful `create_stocks` run into its matching pass. -/
theorem create_stocks_eq {remnants : List Remnant} {ids : List String}
    {stocks : List Stock} {rest : List String}
    (h : create_stocks remnants ids = some (stocks, rest)) :
    ∃ m, stocksPass remnants ids = some (m, rest) ∧
      stocks = m ++ rest.map (fun i => Stock.mk i 0) := by
  unfold create_stocks at h
  cases hp : stocksPass remnants ids with
  | none => rw [hp] at h; cases h
  | some p =>
    obtain ⟨m, rest'⟩ := p
    rw [hp] at h
    simp only [Option.some.injEq, Prod.mk.injEq] at h
    obtain ⟨h1, h2⟩ := h
    subst h2
    exact ⟨m, rfl, h1.symm⟩

/-- Destructure one successful matched step of `stocksPass`. -/
theorem stocksPass_cons_pos {w : Remnant} {ws : List Remnant} {ids : List String}
    {m : List Stock} {rest : List String} (hc : w.code ∈ ids)
    (h : stocksPass (w :: ws) ids = some (m, rest)) :
    ∃ st m', normalizeQuantity w.quantity = some st ∧
      stocksPass ws (ids.erase w.code) = some (m', rest) ∧
      m = Stock.mk w.code st :: m' := by
  simp only [stocksPass, if_pos hc] at h
  obtain ⟨st, hst, h2⟩ := Option.bind_eq_some.mp h
  obtain ⟨⟨m', rest'⟩, hrec, heq⟩ := Option.map_eq_some'.mp h2
  simp only [Prod.mk.injEq] at heq
  obtain ⟨h3, h4⟩ := heq
  subst h4
  exact ⟨st, m', hst, hrec, h3.symm⟩

/-- The final `offer_ids` state is a sublist (subsequence in original
order) of the initial one: `list.remove` only deletes elements. -/
theorem stocksPass_rest_sublist {ws : List Remnant} :
    ∀ {ids : List String} {m : List Stock} {rest : List String},
      stocksPass ws ids = some (m, rest) → rest.Sublist ids := by
  induction ws with
  | nil =>
    intro ids m rest h
    simp only [stocksPass, Option.some.injEq, Prod.mk.injEq] at h
    exact h.2 ▸ List.Sublist.refl ids
  | cons w ws ih =>
    intro ids m rest h
    by_cases hc : w.code ∈ ids
    · obtain ⟨st, m', _, hrec, _⟩ := stocksPass_cons_pos hc h
      exact (ih hrec).trans (List.erase_sublist w.code ids)
    · simp only [stocksPass, if_neg hc] at h
      exact ih h

/-- The matched offer ids together with the remaining ids are a
permutation of the initial ids, when those are duplicate-free. -/
theorem stocksPass_perm {ws : List Remnant} :
    ∀ {ids : List String} {m : List Stock} {rest : List String}, ids.Nodup →
      stocksPass ws ids = some (m, rest) →
      (m.map Stock.offer_id ++ rest).Perm ids := by
  induction ws with
  | nil =>
    intro ids m rest _ h
    simp only [stocksPass, Option.some.injEq, Prod.mk.injEq] at h
    obtain ⟨h1, h2⟩ := h
    subst h1; subst h2
    simp
  | cons w ws ih =>
    intro ids m rest hnd h
    by_cases hc : w.code ∈ ids
    · obtain ⟨st, m', _, hrec, hm⟩ := stocksPass_cons_pos hc h
      subst hm
      simp only [List.map_cons, List.cons_append]
      exact ((ih (hnd.erase w.code) hrec).cons w.code).trans
        (List.perm_cons_erase hc).symm
    · simp only [stocksPass, if_neg hc] at h
      exact ih hnd h

/-- The matched offer ids form a subsequence of the feed codes: matched
decisions come out in feed order. -/
theorem stocksPass_feed_sublist {ws : List Remnant} :
    ∀ {ids : List String} {m : List Stock} {rest : List String},
      stocksPass ws ids = some (m, rest) →
      (m.map Stock.offer_id).Sublist (ws.map Remnant.code) := by
  induction ws with
  | nil =>
    intro ids m rest h
    simp only [stocksPass, Option.some.injEq, Prod.mk.injEq] at h
    obtain ⟨h1, _⟩ := h
    subst h1
    simp
  | cons w ws ih =>
    intro ids m rest h
    by_cases hc : w.code ∈ ids
    · obtain ⟨st, m', _, hrec, hm⟩ := stocksPass_cons_pos hc h
      subst hm
      simp only [List.map_cons]
      exact (ih hrec).cons₂ w.code
    · simp only [stocksPass, if_neg hc] at h
      exact (ih h).cons w.code

/-- Every matched decision is the normalized quantity of some feed row. -/
theorem stocksPass_src {ws : List Remnant} :
    ∀ {ids : List String} {m : List Stock} {rest : List String},
      stocksPass ws ids = some (m, rest) →
      ∀ s ∈ m, ∃ w ∈ ws, w.code = s.offer_id ∧
        normalizeQuantity w.quantity = some s.stock := by
  induction ws with
  | nil =>
    intro ids m rest h
    simp only [stocksPass, Option.some.injEq, Prod.mk.injEq] at h
    obtain ⟨h1, _⟩ := h
    subst h1
    intro s hs
    cases hs
  | cons w ws ih =>
    intro ids m rest h
    by_cases hc : w.code ∈ ids
    · obtain ⟨st, m', hst, hrec, hm⟩ := stocksPass_cons_pos hc h
      subst hm
      intro s hs
      rcases List.mem_cons.mp hs with hs | hs
      · subst hs
        exact ⟨w, List.mem_cons_self w ws, rfl, hst⟩
      · obtain ⟨w', hw', hcode, hq⟩ := ih hrec s hs
        exact ⟨w', List.mem_cons_of_mem w hw', hcode, hq⟩
    · simp only [stocksPass, if_neg hc] at h
      intro s hs
      obtain ⟨w', hw', hcode, hq⟩ := ih h s hs
      exact ⟨w', List.mem_cons_of_mem w hw', hcode, hq⟩

/-- An id absent from the working set is never emitted and never remains. -/
theorem stocksPass_not_mem {c : String} {ws : List Remnant} :
    ∀ {ids : List String} {m : List Stock} {rest : List String},
      stocksPass ws ids = some (m, rest) → c ∉ ids →
      (∀ s ∈ m, s.offer_id ≠ c) ∧ c ∉ rest := by
  induction ws with
  | nil =>
    intro ids m rest h hc
    simp only [stocksPass, Option.some.injEq, Prod.mk.injEq] at h
    obtain ⟨h1, h2⟩ := h
    subst h1; subst h2
    exact ⟨fun s hs => absurd hs (List.not_mem_nil s), hc⟩
  | cons w ws ih =>
    intro ids m rest h hc
    by_cases hm : w.code ∈ ids
    · obtain ⟨st, m', _, hrec, hmm⟩ := stocksPass_cons_pos hm h
      subst hmm
      have hc' : c ∉ ids.erase w.code := fun hmem => hc (List.mem_of_mem_erase hmem)
      obtain ⟨ih1, ih2⟩ := ih hrec hc'
      refine ⟨?_, ih2⟩
      intro s hs
      rcases List.mem_cons.mp hs with hs | hs
      · subst hs
        exact ne_of_mem_of_not_mem hm hc
      · exact ih1 s hs
    · simp only [stocksPass, if_neg hm] at h
      exact ih h hc

/-- When every feed quantity normalizes, the matching pass succeeds. -/
theorem stocksPass_total {ws : List Remnant} :
    ∀ {ids : List String}, (∀ w ∈ ws, (normalizeQuantity w.quantity).isSome) →
      ∃ m rest, stocksPass ws ids = some (m, rest) := by
  induction ws with
  | nil => intro ids _; exact ⟨[], ids, rfl⟩
  | cons w ws ih =>
    intro ids hq
    by_cases hc : w.code ∈ ids
    · obtain ⟨st, hst⟩ := Option.isSome_iff_exists.mp (hq w (List.mem_cons_self w ws))
      obtain ⟨m, rest, hrec⟩ := @ih (ids.erase w.code)
        (fun w' hw' => hq w' (List.mem_cons_of_mem w hw'))
      exact ⟨Stock.mk w.code st :: m, rest, by
        simp only [stocksPass, if_pos hc, hst, Option.some_bind, hrec, Option.map_some']⟩
    · obtain ⟨m, rest, hrec⟩ := @ih ids
        (fun w' hw' => hq w' (List.mem_cons_of_mem w hw'))
      exact ⟨m, rest, by simp only [stocksPass, if_neg hc, hrec]⟩

/-- No feed code survives in the final `offer_ids` state: every code that
could still match was matched and erased. -/
theorem stocksPass_rest_code {ws : List Remnant} :
    ∀ {ids : List String} {m : List Stock} {rest : List String}, ids.Nodup →
      stocksPass ws ids = some (m, rest) → ∀ w ∈ ws, w.code ∉ rest := by
  induction ws with
  | nil => intro ids m rest _ _ w hw; cases hw
  | cons w ws ih =>
    intro ids m rest hnd h w' hw'
    by_cases hc : w.code ∈ ids
    · obtain ⟨st, m', _, hrec, _⟩ := stocksPass_cons_pos hc h
      rcases List.mem_cons.mp hw' with hw' | hw'
      · subst hw'
        intro hmem
        have hmem' : w'.code ∈ ids.erase w'.code :=
          (stocksPass_rest_sublist hrec).subset hmem
        exact (hnd.mem_erase_iff.mp hmem').1 rfl
      · exact ih (hnd.erase w.code) hrec w' hw'
    · simp only [stocksPass, if_neg hc] at h
      rcases List.mem_cons.mp hw' with hw' | hw'
      · subst hw'
        exact fun hmem => hc ((stocksPass_rest_sublist h).subset hmem)
      · exact ih hnd h w' hw'

/-- A feed none of whose codes is in `offer_ids` matches nothing and leaves
the working set untouched. -/
theorem stocksPass_no_match {ws : List Remnant} :
    ∀ {ids : List String}, (∀ w ∈ ws, w.code ∉ ids) →
      stocksPass ws ids = some ([], ids) := by
  induction ws with
  | nil => intro ids _; rfl
  | cons w ws ih =>
    intro ids hno
    have hc : w.code ∉ ids := hno w (List.mem_cons_self w ws)
    simp only [stocksPass, if_neg hc]
    exact ih (fun w' hw' => hno w' (List.mem_cons_of_mem w hw'))

/-- A feed none of whose codes is in `offer_ids` produces no prices. -/
theorem create_prices_nil {ws : List Remnant} :
    ∀ {ids : List String}, (∀ w ∈ ws, w.code ∉ ids) →
      create_prices ws ids = [] := by
  induction ws with
  | nil => intro ids _; rfl
  | cons w ws ih =>
    intro ids hno
    have hc : w.code ∉ ids := hno w (List.mem_cons_self w ws)
    simp only [create_prices, if_neg hc]
    exact ih (fun w' hw' => hno w' (List.mem_cons_of_mem w hw'))

/-- Consumption semantics of the matching pass: when `c` is a known id, the
first feed row carrying code `c` supplies the one and only decision for
`c`, later rows with that code are inert, and `c` does not survive into the
final `offer_ids` state. -/
theorem stocksPass_first_match {c : String} {ws : List Remnant} :
    ∀ {ids : List String} {m : List Stock} {rest : List String}, ids.Nodup →
      c ∈ ids → stocksPass ws ids = some (m, rest) →
      ∀ {w : Remnant}, ws.find? (fun r => r.code == c) = some w →
      ∃ q, normalizeQuantity w.quantity = some q ∧
        m.filter (fun s => s.offer_id == c) = [Stock.mk c q] ∧ c ∉ rest := by
  induction ws with
  | nil =>
    intro ids m rest _ _ _ w hf
    simp [List.find?] at hf
  | cons w0 ws ih =>
    intro ids m rest hnd hc h w hf
    by_cases hcode : w0.code = c
    · rw [List.find?_cons_of_pos ws (by simp [hcode])] at hf
      injection hf with hf
      subst hf
      have hm : w0.code ∈ ids := hcode ▸ hc
      obtain ⟨st, m', hst, hrec, hmm⟩ := stocksPass_cons_pos hm h
      subst hmm
      have hcerase : c ∉ ids.erase w0.code := by
        rw [hcode]
        intro hmem
        exact (hnd.mem_erase_iff.mp hmem).1 rfl
      obtain ⟨hnone, hrest⟩ := stocksPass_not_mem hrec hcerase
      refine ⟨st, hst, ?_, hrest⟩
      have hhead : ((Stock.mk w0.code st).offer_id == c) = true := by
        simp [hcode]
      simp only [List.filter_cons, hhead, if_true]
      rw [List.filter_eq_nil_iff.mpr (fun s hs => by simp [hnone s hs])]
      rw [hcode]
    · rw [List.find?_cons_of_neg ws (by simp [hcode])] at hf
      by_cases hm : w0.code ∈ ids
      · obtain ⟨st, m', hst, hrec, hmm⟩ := stocksPass_cons_pos hm h
        subst hmm
        have hcerase : c ∈ ids.erase w0.code :=
          (List.mem_erase_of_ne (fun he => hcode he.symm)).mpr hc
        obtain ⟨q, hq, hfil, hrest⟩ := ih (hnd.erase w0.code) hcerase hrec hf
        refine ⟨q, hq, ?_, hrest⟩
        have hhead : ((Stock.mk w0.code st).offer_id == c) = false := by
          simp [hcode]
        simp only [List.filter_cons, hhead, Bool.false_eq_true, if_false]
        exact hfil
      · simp only [stocksPass, if_neg hm] at h
        exact ih hnd hc h hf

/-- Unfolding equation of `divide` on a nonempty list and positive size. -/
theorem divide_cons {α : Type} {lst : List α} {n : Nat} (h1 : lst ≠ []) (h2 : n ≠ 0) :
    divide lst n = lst.take n :: divide (lst.drop n) n := by
  rw [divide]
  rw [dif_neg]
  push_neg
  exact ⟨fun hl => h1 (List.length_eq_zero.mp hl), h2⟩

/-- `divide` on the empty list yields no chunks. -/
theorem divide_nil {α : Type} (n : Nat) : divide ([] : List α) n = [] := by
  rw [divide]
  simp

/-- `divide` yields a nonempty chunk list exactly on a nonempty input. -/
theorem divide_eq_nil_iff {α : Type} {lst : List α} {n : Nat} (hn : n ≠ 0) :
    divide lst n = [] ↔ lst = [] := by
  constructor
  · intro h
    by_contra hne
    rw [divide_cons hne hn] at h
    cases h
  · intro h
    subst h
    exact divide_nil n

/-- Concatenating the chunks of `divide` restores the input list. -/
theorem divide_flatten_aux {α : Type} {n : Nat} (hn : 0 < n) :
    ∀ (k : Nat) (lst : List α), lst.length ≤ k → (divide lst n).flatten = lst := by
  intro k
  induction k with
  | zero =>
    intro lst hl
    have : lst = [] := List.length_eq_zero.mp (Nat.le_zero.mp hl)
    subst this
    rw [divide_nil]
    rfl
  | succ k ih =>
    intro lst hl
    by_cases h0 : lst = []
    · subst h0
      rw [divide_nil]
      rfl
    · rw [divide_cons h0 (Nat.pos_iff_ne_zero.mp hn)]
      rw [List.flatten_cons]
      rw [ih (lst.drop n) (by simp only [List.length_drop]; omega)]
      exact List.take_append_drop n lst

/-- Every chunk except possibly the last has length exactly `n`. -/
theorem divide_dropLast_aux {α : Type} {n : Nat} (hn : 0 < n) :
    ∀ (k : Nat) (lst : List α), lst.length ≤ k →
      ∀ c ∈ (divide lst n).dropLast, c.length = n := by
  intro k
  induction k with
  | zero =>
    intro lst hl c hc
    have : lst = [] := List.length_eq_zero.mp (Nat.le_zero.mp hl)
    subst this
    rw [divide_nil] at hc
    cases hc
  | succ k ih =>
    intro lst hl c hc
    by_cases h0 : lst = []
    · subst h0
      rw [divide_nil] at hc
      cases hc
    · rw [divide_cons h0 (Nat.pos_iff_ne_zero.mp hn)] at hc
      by_cases ht : divide (lst.drop n) n = []
      · rw [ht] at hc
        cases hc
      · rw [List.dropLast_cons_of_ne_nil ht] at hc
        rcases List.mem_cons.mp hc with hc | hc
        · subst hc
          have hdrop : lst.drop n ≠ [] := (not_congr (divide_eq_nil_iff
            (Nat.pos_iff_ne_zero.mp hn))).mp ht
          have hlen : n < lst.length := by
            by_contra hle
            push_neg at hle
            exact hdrop (List.drop_eq_nil_of_le hle)
          rw [List.length_take]
          omega
        · exact ih (lst.drop n) (by simp only [List.length_drop]; omega) c hc

/-- The last chunk holds the remainder: `length mod n`, or `n` when the
length is an exact multiple. -/
theorem divide_getLast_aux {α : Type} {n : Nat} (hn : 0 < n) :
    ∀ (k : Nat) (lst : List α), lst.length ≤ k → lst ≠ [] →
      ∀ c, (divide lst n).getLast? = some c →
        c.length = if lst.length % n = 0 then n else lst.length % n := by
  intro k
  induction k with
  | zero =>
    intro lst hl h0
    exact absurd (List.length_eq_zero.mp (Nat.le_zero.mp hl)) h0
  | succ k ih =>
    intro lst hl h0 c hc
    rw [divide_cons h0 (Nat.pos_iff_ne_zero.mp hn)] at hc
    by_cases ht : divide (lst.drop n) n = []
    · rw [ht] at hc
      simp only [List.getLast?_singleton, Option.some.injEq] at hc
      subst hc
      have hdrop : lst.drop n = [] := (divide_eq_nil_iff (Nat.pos_iff_ne_zero.mp hn)).mp ht
      have hle : lst.length ≤ n := by
        by_contra hgt
        push_neg at hgt
        have := List.drop_eq_nil_iff.mp hdrop
        omega
      have hpos : 0 < lst.length := List.length_pos.mpr h0
      rw [List.length_take]
      rcases Nat.lt_or_ge lst.length n with hlt | hge
      · rw [Nat.mod_eq_of_lt hlt]
        rw [if_neg (by omega)]
        omega
      · have heq : lst.length = n := by omega
        rw [heq, Nat.mod_self]
        simp
    · have hcons : ∀ (a : List α) (t : List (List α)), t ≠ [] →
          (a :: t).getLast? = t.getLast? := by
        intro a t htne
        cases t with
        | nil => exact absurd rfl htne
        | cons b t => rfl
      rw [hcons _ _ ht] at hc
      have hdrop : lst.drop n ≠ [] := (not_congr (divide_eq_nil_iff
        (Nat.pos_iff_ne_zero.mp hn))).mp ht
      have hlen : n < lst.length := by
        by_contra hle
        push_neg at hle
        exact hdrop (List.drop_eq_nil_of_le hle)
      have := ih (lst.drop n) (by simp only [List.length_drop]; omega) hdrop c hc
      rw [List.length_drop] at this
      rw [this]
      rw [Nat.mod_eq_sub_mod (by omega : n ≤ lst.length)]

/-- Decimal value of a digit string, most significant digit first. -/
def decVal (cs : List Char) : Nat := cs.foldl (fun a c => a * 10 + digitVal c) 0

/-- An ASCII digit is not Python whitespace. -/
theorem digit_not_space {c : Char} (h : c.isDigit = true) : isPySpace c = false := by
  unfold Char.isDigit at h
  rw [Bool.and_eq_true, decide_eq_true_eq, decide_eq_true_eq] at h
  simp only [isPySpace, Bool.or_eq_false_iff, decide_eq_false_iff_not]
  refine ⟨⟨⟨⟨⟨?_, ?_⟩, ?_⟩, ?_⟩, ?_⟩, ?_⟩ <;> rintro rfl <;> revert h <;> decide

/-- An ASCII digit is neither a plus nor a minus sign. -/
theorem digit_not_sign {c : Char} (h : c.isDigit = true) : c ≠ '+' ∧ c ≠ '-' := by
  constructor <;> rintro rfl <;> revert h <;> decide

/-- `dropWhile` of whitespace leaves a list of digits unchanged. -/
theorem dropWhile_space_digits {cs : List Char} (h : ∀ c ∈ cs, c.isDigit = true) :
    cs.dropWhile isPySpace = cs := by
  cases cs with
  | nil => rfl
  | cons c t =>
    rw [List.dropWhile_cons]
    rw [digit_not_space (h c (List.mem_cons_self c t))]
    simp

/-- Whitespace stripping leaves a digit string unchanged. -/
theorem pyStrip_digits {cs : List Char} (h : ∀ c ∈ cs, c.isDigit = true) :
    pyStrip cs = cs := by
  unfold pyStrip
  rw [dropWhile_space_digits h]
  rw [dropWhile_space_digits (fun c hc => h c (List.mem_reverse.mp hc))]
  exact List.reverse_reverse cs

/-- Digit accumulation never fails on a pure digit string and folds up its
decimal value. -/
theorem pyDigitsAux_digits {cs : List Char} :
    ∀ {acc : Nat}, (∀ c ∈ cs, c.isDigit = true) →
      pyDigitsAux acc cs = some (cs.foldl (fun a c => a * 10 + digitVal c) acc) := by
  induction cs with
  | nil => intro acc _; rfl
  | cons c t ih =>
    intro acc h
    rw [pyDigitsAux.eq_def]
    simp only [h c (List.mem_cons_self c t), if_true]
    rw [ih (fun d hd => h d (List.mem_cons_of_mem c hd))]
    rfl

/-- `pyDigits` on a nonempty pure digit string returns its decimal value. -/
theorem pyDigits_digits {cs : List Char} (hne : cs ≠ [])
    (h : ∀ c ∈ cs, c.isDigit = true) : pyDigits cs = some (decVal cs) := by
  cases cs with
  | nil => exact absurd rfl hne
  | cons c t =>
    simp only [pyDigits, h c (List.mem_cons_self c t), if_true]
    rw [pyDigitsAux_digits (fun d hd => h d (List.mem_cons_of_mem c hd))]
    simp [decVal, List.foldl_cons]

/-- Python's `int` on a nonempty pure digit string returns its decimal
value (no sign, no whitespace, no underscores are involved). -/
theorem pyInt_digits {cs : List Char} (hne : cs ≠ [])
    (h : ∀ c ∈ cs, c.isDigit = true) :
    pyInt cs.asString = some (Int.ofNat (decVal cs)) := by
  unfold pyInt
  rw [show cs.asString.toList = cs from rfl]
  rw [pyStrip_digits h]
  cases cs with
  | nil => exact absurd rfl hne
  | cons c t =>
    have hcd := h c (List.mem_cons_self c t)
    obtain ⟨hp, hm⟩ := digit_not_sign hcd
    simp only [pyIntCore, if_neg hp, if_neg hm]
    rw [pyDigits_digits (by simp) h]
    rfl

/-- Every character of `priceDigits` is an ASCII digit. -/
theorem priceDigits_digits {p : String} : ∀ c ∈ priceDigits p, c.isDigit = true := by
  intro c hc
  exact List.of_mem_filter hc

/-- The matching pass of `create_prices` is a filter of the feed followed
by a per-row map, in feed order. -/
theorem create_prices_eq (remnants : List Remnant) (ids : List String) :
    create_prices remnants ids
      = (remnants.filter (fun w => decide (w.code ∈ ids))).map
          (fun w => Price.mk w.code (price_conversion w.price)) := by
  induction remnants with
  | nil => rfl
  | cons w ws ih =>
    by_cases hc : w.code ∈ ids
    · simp [create_prices, List.filter_cons, hc, ih]
    · simp [create_prices, List.filter_cons, hc, ih]

/-- Running market.py's pagination loop from position `j` of the cursor
chain, when the first falsy `nextPageToken` appears `d` calls later,
consumes `d + 1` pages and returns the accumulated entries in page order. -/
theorem market_fetch_run (f : String → Page) (K : Nat)
    (hK : (f (cursorChain f K)).nextPageToken = "")
    (hlt : ∀ j, j < K → (f (cursorChain f j)).nextPageToken ≠ "") :
    ∀ d j, j + d = K → ∀ fuel, d < fuel → ∀ acc,
      market_fetch f fuel (cursorChain f j) acc
        = some (acc ++ ((List.range' j (d + 1)).map
            (fun i => (f (cursorChain f i)).entries)).flatten) := by
  intro d
  induction d with
  | zero =>
    intro j hj fuel hf acc
    obtain ⟨g, rfl⟩ : ∃ g, fuel = g + 1 := ⟨fuel - 1, by omega⟩
    have hj0 : j = K := by omega
    rw [hj0]
    simp only [market_fetch, if_pos hK]
    congr 1
    rw [show List.range' K 1 = [K] from rfl]
    simp
  | succ d ih =>
    intro j hj fuel hf acc
    obtain ⟨g, rfl⟩ : ∃ g, fuel = g + 1 := ⟨fuel - 1, by omega⟩
    have hjK : j < K := by omega
    have hne := hlt j hjK
    simp only [market_fetch, if_neg hne]
    have hchain : (f (cursorChain f j)).nextPageToken = cursorChain f (j + 1) := rfl
    rw [hchain]
    rw [ih (j + 1) (by omega) g (by omega)]
    rw [List.range'_succ j (d + 1) 1]
    simp [List.append_assoc]

/-- The pagination loop of seller.py never breaks against `badCatalog`:
each round leaves the accumulated item list empty while the reported total
stays 1, so the break condition `total == len(product_list)` never holds. -/
theorem seller_fetch_badCatalog : ∀ (fuel : Nat) (tok : String),
    seller_fetch badCatalog fuel tok [] = none := by
  intro fuel
  induction fuel with
  | zero => intro tok; rfl
  | succ fuel ih =>
    intro tok
    simp only [seller_fetch, badCatalog]
    rw [if_neg (by simp)]
    exact ih ""

/-- C1 (reconciliation completeness and order): for every duplicate-free
list of known offer ids and every remnants feed whose quantity tokens all
normalize without error, `create_stocks` succeeds and yields exactly one
decision per known offer id — the decision ids are a duplicate-free
permutation of the known ids — with the matched decisions first in feed
order (their ids are a subsequence of the feed codes) followed by
zero-stock decisions for the unmatched ids in the original offer-id
order (a subsequence of the original id list). -/
theorem c1_stock_reconciliation (remnants : List Remnant) (ids : List String)
    (hnd : ids.Nodup) (hq : ∀ w ∈ remnants, (normalizeQuantity w.quantity).isSome) :
    ∃ stocks rest, create_stocks remnants ids = some (stocks, rest) ∧
      (stocks.map Stock.offer_id).Perm ids ∧
      (stocks.map Stock.offer_id).Nodup ∧
      rest.Sublist ids ∧
      ∃ matched, stocks = matched ++ rest.map (fun i => Stock.mk i 0) ∧
        (matched.map Stock.offer_id).Sublist (remnants.map Remnant.code) := by
  obtain ⟨m, rest, hpass⟩ := stocksPass_total hq
  have hmap : ((m ++ rest.map (fun i => Stock.mk i 0)).map Stock.offer_id)
      = m.map Stock.offer_id ++ rest := by
    rw [List.map_append, List.map_map]
    rw [show (Stock.offer_id ∘ fun i => Stock.mk i 0) = id from rfl]
    rw [List.map_id]
  refine ⟨m ++ rest.map (fun i => Stock.mk i 0), rest, ?_, ?_, ?_,
    stocksPass_rest_sublist hpass, m, rfl, stocksPass_feed_sublist hpass⟩
  · unfold create_stocks
    rw [hpass]
  · rw [hmap]
    exact stocksPass_perm hnd hpass
  · rw [hmap]
    exact (stocksPass_perm hnd hpass).symm.nodup hnd

/-- Witness for C1 at the spec's own example: feed row with code 123 and
quantity `">10"`, known ids 123 and 456. -/
theorem c1_stock_reconciliation_witness :
    (["123", "456"] : List String).Nodup ∧
    (∃ stocks rest,
      create_stocks [Remnant.mk "123" ">10" "5990.00"] ["123", "456"]
        = some (stocks, rest) ∧
      (stocks.map Stock.offer_id).Perm ["123", "456"] ∧
      (stocks.map Stock.offer_id).Nodup ∧
      rest.Sublist ["123", "456"] ∧
      ∃ matched, stocks = matched ++ rest.map (fun i => Stock.mk i 0) ∧
        (matched.map Stock.offer_id).Sublist
          ([Remnant.mk "123" ">10" "5990.00"].map Remnant.code)) :=
  ⟨by decide,
    c1_stock_reconciliation [Remnant.mk "123" ">10" "5990.00"] ["123", "456"]
      (by decide) (by decide)⟩

/-- C2 (quantity normalization): the stock count used by `create_stocks`
is `normalizeQuantity` of the row's quantity token (or the zero fill), and
`normalizeQuantity` maps `">10"` to 100, `"1"` to 0, any other token to
Python's base-10 `int` parse of it — failing exactly when `int` fails
(e.g. on `"abc"`) — with no other special case. -/
theorem c2_quantity_normalization :
    normalizeQuantity ">10" = some 100 ∧
    normalizeQuantity "1" = some 0 ∧
    normalizeQuantity "7" = some 7 ∧
    normalizeQuantity "abc" = none ∧
    (∀ s : String, s ≠ ">10" → s ≠ "1" → normalizeQuantity s = pyInt s) ∧
    (∀ (ws : List Remnant) (ids : List String) (stocks : List Stock)
        (rest : List String),
      create_stocks ws ids = some (stocks, rest) →
      ∀ s ∈ stocks, s.stock = 0 ∨
        ∃ w ∈ ws, normalizeQuantity w.quantity = some s.stock) := by
  refine ⟨by decide, by decide, by decide, by decide, ?_, ?_⟩
  · intro s h1 h2
    simp only [normalizeQuantity, if_neg h1, if_neg h2]
  · intro ws ids stocks rest h s hs
    obtain ⟨m, hpass, hst⟩ := create_stocks_eq h
    subst hst
    rcases List.mem_append.mp hs with hm | hz
    · obtain ⟨w, hw, _, hqs⟩ := stocksPass_src hpass s hm
      exact Or.inr ⟨w, hw, hqs⟩
    · obtain ⟨i, _, rfl⟩ := List.mem_map.mp hz
      exact Or.inl rfl

/-- Witness for C2: the sentinel rule at `">10"` and the fall-through to
Python's `int` parse at the non-special token `"5"`. -/
theorem c2_quantity_normalization_witness :
    normalizeQuantity ">10" = some 100 ∧ normalizeQuantity "5" = pyInt "5" :=
  ⟨c2_quantity_normalization.1,
    c2_quantity_normalization.2.2.2.2.1 "5" (by decide) (by decide)⟩

/-- C5 (duplicate-code quirk): when a known offer id `c` occurs as the
code of some feed row, the decisions `create_stocks` emits for `c` are
exactly one, carrying the normalized quantity of the FIRST feed row whose
code is `c` (`find?`); every later row with that code is silently
ignored. -/
theorem c5_duplicate_code_first_wins (remnants : List Remnant) (ids : List String)
    (c : String) (hnd : ids.Nodup) (hc : c ∈ ids)
    (stocks : List Stock) (rest : List String)
    (h : create_stocks remnants ids = some (stocks, rest))
    (w : Remnant) (hf : remnants.find? (fun r => r.code == c) = some w) :
    ∃ q, normalizeQuantity w.quantity = some q ∧
      stocks.filter (fun s => s.offer_id == c) = [Stock.mk c q] := by
  obtain ⟨m, hpass, hst⟩ := create_stocks_eq h
  subst hst
  obtain ⟨q, hq, hfil, hrest⟩ := stocksPass_first_match hnd hc hpass hf
  refine ⟨q, hq, ?_⟩
  rw [List.filter_append, hfil]
  rw [List.filter_eq_nil_iff.mpr ?_]
  · simp
  · intro s hs
    obtain ⟨i, hi, rfl⟩ := List.mem_map.mp hs
    simp [ne_of_mem_of_not_mem hi hrest]

/-- Witness for C5 at the spec's own example: two rows with code 1 and
quantities 5 and 9 against the single known id 1; only the first row's
value 5 is honored. -/
theorem c5_duplicate_code_first_wins_witness :
    ∃ q, normalizeQuantity "5" = some q ∧
      ([Stock.mk "1" 5] : List Stock).filter (fun s => s.offer_id == "1")
        = [Stock.mk "1" q] :=
  c5_duplicate_code_first_wins
    [Remnant.mk "1" "5" "p", Remnant.mk "1" "9" "p"] ["1"] "1"
    (by decide) (by decide) [Stock.mk "1" 5] [] (by decide)
    (Remnant.mk "1" "5" "p") (by decide)

/-- C3 (price normalization): the normalized integer price (as used by
market.py's `create_prices`: `int(price_conversion(...))`) keeps the
substring before the first `.`, strips every non-ASCII-digit character and
parses the remaining digit string in base 10 — yielding 5990 on
`"5'990.00 руб."` and 10500 on `"10'500.50 руб."` — and fails exactly when
no digit remains (e.g. on the empty string). -/
theorem c3_price_normalization :
    price_conversion "5\x27990.00 руб." = "5990" ∧
    market_price_value "5\x27990.00 руб." = some 5990 ∧
    market_price_value "10\x27500.50 руб." = some 10500 ∧
    market_price_value "" = none ∧
    (∀ p : String, market_price_value p =
      if priceDigits p = [] then none
      else some (Int.ofNat (decVal (priceDigits p)))) := by
  refine ⟨by decide, by decide, by decide, rfl, ?_⟩
  intro p
  by_cases h : priceDigits p = []
  · rw [if_pos h]
    unfold market_price_value price_conversion
    rw [h]
    rfl
  · rw [if_neg h]
    unfold market_price_value price_conversion
    exact pyInt_digits h priceDigits_digits

/-- C4 counterexample: `create_stocks` does NOT work on its own copy of
the id collection.  On feed row (code 1, quantity 5) with known ids [1],
the caller's id list ends up `[]`, different from the original `["1"]`,
and a second run on that mutated collection produces different output
(nothing instead of one decision). -/
theorem c4_counterexample :
    create_stocks [Remnant.mk "1" "5" "x"] ["1"] = some ([Stock.mk "1" 5], []) ∧
    (([] : List String) ≠ ["1"]) ∧
    create_stocks [Remnant.mk "1" "5" "x"] []
      ≠ create_stocks [Remnant.mk "1" "5" "x"] ["1"] := by decide

/-- C4 as amended: reconciliation is deterministic, but `create_stocks`
consumes the caller's offer-id collection (every matched id is removed),
so only a caller that supplies a fresh copy sees identical output twice;
a second run on the collection the first run left behind matches nothing —
it yields only zero-stock decisions for the leftover ids and an empty
price list. -/
theorem c4_rerun_on_consumed_ids (remnants : List Remnant) (ids : List String)
    (hnd : ids.Nodup) (stocks : List Stock) (rest : List String)
    (h : create_stocks remnants ids = some (stocks, rest)) :
    create_stocks remnants rest = some (rest.map (fun i => Stock.mk i 0), rest) ∧
    create_prices remnants rest = [] := by
  obtain ⟨m, hpass, _⟩ := create_stocks_eq h
  have hno : ∀ w ∈ remnants, w.code ∉ rest := stocksPass_rest_code hnd hpass
  constructor
  · unfold create_stocks
    rw [stocksPass_no_match hno]
    simp
  · exact create_prices_nil hno

/-- Witness for the amended C4 at the counterexample's input. -/
theorem c4_rerun_on_consumed_ids_witness :
    create_stocks [Remnant.mk "1" "5" "x"] []
      = some (([] : List String).map (fun i => Stock.mk i 0), []) ∧
    create_prices [Remnant.mk "1" "5" "x"] [] = [] :=
  c4_rerun_on_consumed_ids [Remnant.mk "1" "5" "x"] ["1"] (by decide)
    [Stock.mk "1" 5] [] (by decide)

/-- C6 (batcher): for every list and positive chunk size `n`, `divide`
yields no chunks on the empty list, its chunks concatenate back to the
input (contiguous slices in input order), every chunk except possibly the
last has length exactly `n`, and the last chunk holds the remainder
(`length mod n`, or `n` when the length is an exact multiple). -/
theorem c6_divide_batches {α : Type} (lst : List α) (n : Nat) (hn : 0 < n) :
    divide ([] : List α) n = [] ∧
    (divide lst n).flatten = lst ∧
    (∀ c ∈ (divide lst n).dropLast, c.length = n) ∧
    (∀ c, (divide lst n).getLast? = some c →
      c.length = if lst.length % n = 0 then n else lst.length % n) := by
  refine ⟨divide_nil n, divide_flatten_aux hn lst.length lst (le_refl _),
    divide_dropLast_aux hn lst.length lst (le_refl _), ?_⟩
  intro c hc
  by_cases h0 : lst = []
  · subst h0
    rw [divide_nil] at hc
    cases hc
  · exact divide_getLast_aux hn lst.length lst (le_refl _) h0 c hc

/-- Witness for C6 at the spec's example `[1, 2, 3]` with chunk size 2. -/
theorem c6_divide_batches_witness :
    divide ([] : List Nat) 2 = [] ∧
    (divide ([1, 2, 3] : List Nat) 2).flatten = [1, 2, 3] ∧
    (∀ c ∈ (divide ([1, 2, 3] : List Nat) 2).dropLast, c.length = 2) ∧
    (∀ c, (divide ([1, 2, 3] : List Nat) 2).getLast? = some c →
      c.length = if ([1, 2, 3] : List Nat).length % 2 = 0 then 2
        else ([1, 2, 3] : List Nat).length % 2) :=
  c6_divide_batches [1, 2, 3] 2 (by decide)

/-- C7 counterexample: `create_prices` does NOT emit at most one decision
per known offer id.  Two feed rows with the same code 1 (prices 10 and 20)
against known ids [1] produce two price decisions for id 1, because the
price pass never removes a matched id. -/
theorem c7_counterexample :
    create_prices [Remnant.mk "1" "q" "10", Remnant.mk "1" "q" "20"] ["1"]
      = [Price.mk "1" "10", Price.mk "1" "20"] ∧
    ¬ (((create_prices [Remnant.mk "1" "q" "10", Remnant.mk "1" "q" "20"]
          ["1"]).map Price.offer_id).count "1" ≤ 1) := by decide

/-- C7 as amended: `create_prices` produces exactly one price decision per
matched feed row, in feed order (it is the filter of the feed to rows whose
code is a known id, mapped to decisions), and no entry at all for a known
offer id matched by no row; at most one decision per known offer id holds
only when the feed codes are duplicate-free — duplicate codes each produce
a decision, since ids are never consumed in the price pass. -/
theorem c7_price_selectivity (remnants : List Remnant) (ids : List String) :
    (create_prices remnants ids
      = (remnants.filter (fun w => decide (w.code ∈ ids))).map
          (fun w => Price.mk w.code (price_conversion w.price))) ∧
    ((remnants.map Remnant.code).Nodup →
      ((create_prices remnants ids).map Price.offer_id).Nodup) ∧
    (∀ p ∈ create_prices remnants ids,
      p.offer_id ∈ ids ∧ ∃ w ∈ remnants, w.code = p.offer_id) := by
  refine ⟨create_prices_eq remnants ids, ?_, ?_⟩
  · intro hnd
    rw [create_prices_eq, List.map_map]
    rw [show (Price.offer_id ∘ fun w => Price.mk w.code (price_conversion w.price))
      = Remnant.code from rfl]
    exact List.Nodup.sublist
      (List.Sublist.map Remnant.code (List.filter_sublist remnants)) hnd
  · intro p hp
    rw [create_prices_eq] at hp
    obtain ⟨w, hw, rfl⟩ := List.mem_map.mp hp
    constructor
    · simpa using List.of_mem_filter hw
    · exact ⟨w, List.mem_of_mem_filter hw, rfl⟩

/-- Witness for the amended C7: a duplicate-free feed yields duplicate-free
price-decision ids. -/
theorem c7_price_selectivity_witness :
    ((create_prices [Remnant.mk "123" "q" "5990.00"] ["123", "456"]).map
      Price.offer_id).Nodup :=
  (c7_price_selectivity [Remnant.mk "123" "q" "5990.00"] ["123", "456"]).2.1
    (by decide)

/-- C8 counterexample: the quantity token `"-5"` normalizes without error
(Python's `int` accepts a sign), yet the resulting stock decision carries
a negative count. -/
theorem c8_counterexample :
    normalizeQuantity "-5" = some (-5) ∧
    create_stocks [Remnant.mk "1" "-5" "0"] ["1"]
      = some ([Stock.mk "1" (-5)], []) ∧
    (Stock.mk "1" (-5)).stock < 0 := by decide

/-- C8 as amended: every stock decision carries a non-negative count
provided every quantity token of the feed normalizes to a non-negative
value (zero-fill decisions are always 0); tokens that are unsigned digit
strings or the sentinels always satisfy this, but a signed token such as
`"-5"` normalizes without error to a negative count. -/
theorem c8_nonnegative_stocks (remnants : List Remnant) (ids : List String)
    (stocks : List Stock) (rest : List String)
    (hq : ∀ w ∈ remnants, ∀ q, normalizeQuantity w.quantity = some q → 0 ≤ q)
    (h : create_stocks remnants ids = some (stocks, rest)) :
    ∀ s ∈ stocks, 0 ≤ s.stock := by
  obtain ⟨m, hpass, hst⟩ := create_stocks_eq h
  subst hst
  intro s hs
  rcases List.mem_append.mp hs with hm | hz
  · obtain ⟨w, hw, _, hqs⟩ := stocksPass_src hpass s hm
    exact hq w hw s.stock hqs
  · obtain ⟨i, _, rfl⟩ := List.mem_map.mp hz
    exact le_refl 0

/-- Witness for the amended C8 on the one-row feed with quantity 7. -/
theorem c8_nonnegative_stocks_witness :
    (0 : Int) ≤ (Stock.mk "1" 7).stock :=
  c8_nonnegative_stocks [Remnant.mk "1" "7" "x"] ["1"] [Stock.mk "1" 7] []
    (by
      intro w hw q hq
      simp only [List.mem_singleton] at hw
      subst hw
      have hq' : normalizeQuantity "7" = some q := hq
      rw [show normalizeQuantity "7" = some 7 from by decide] at hq'
      injection hq' with hq'
      omega)
    (by decide) (Stock.mk "1" 7) (by decide)

/-- C9 (non-empty-stock report): a successful `upload_stocks` returns the
full `create_stocks` decision list unchanged together with exactly its
subsequence of decisions with nonzero stock, in the same order. -/
theorem c9_upload_stocks_report (remnants : List Remnant) (ids : List String)
    (nonEmpty stocks : List Stock)
    (h : upload_stocks remnants ids = some (nonEmpty, stocks)) :
    nonEmpty = stocks.filter (fun s => s.stock != 0) ∧
    nonEmpty.Sublist stocks ∧
    ∃ rest, create_stocks remnants ids = some (stocks, rest) := by
  unfold upload_stocks at h
  cases hc : create_stocks remnants ids with
  | none => rw [hc] at h; cases h
  | some p =>
    obtain ⟨stocks', rest⟩ := p
    rw [hc] at h
    simp only [Option.some.injEq, Prod.mk.injEq] at h
    obtain ⟨h1, h2⟩ := h
    subst h2
    subst h1
    exact ⟨rfl, List.filter_sublist stocks', rest, rfl⟩

/-- Witness for C9 at a feed whose single row matches the first of two
known ids. -/
theorem c9_upload_stocks_report_witness :
    ([Stock.mk "123" 100] : List Stock)
      = ([Stock.mk "123" 100, Stock.mk "456" 0] : List Stock).filter
          (fun s => s.stock != 0) ∧
    ([Stock.mk "123" 100] : List Stock).Sublist
      [Stock.mk "123" 100, Stock.mk "456" 0] ∧
    ∃ rest, create_stocks [Remnant.mk "123" ">10" "p"] ["123", "456"]
      = some ([Stock.mk "123" 100, Stock.mk "456" 0], rest) :=
  c9_upload_stocks_report [Remnant.mk "123" ">10" "p"] ["123", "456"]
    [Stock.mk "123" 100] [Stock.mk "123" 100, Stock.mk "456" 0] (by decide)

/-- C10 counterexample: seller.py's `get_offer_ids` does not implement the
cursor contract.  Against a collaborator whose very first response signals
end of list by an absent next-page cursor (`last_id = ""`) — but whose
reported total (1) never equals the accumulated item count (0) — the loop
never breaks: no amount of fuel makes it return. -/
theorem c10_counterexample :
    (badCatalog "").last_id = "" ∧ sellerLoopDiverges badCatalog := by
  refine ⟨rfl, ?_⟩
  intro fuel
  exact seller_fetch_badCatalog fuel ""

/-- C10 as amended: market.py's `get_offer_ids` keeps requesting pages,
threading the returned cursor, until the collaborator answers with a falsy
`nextPageToken`; for every collaborator whose cursor chain reaches such a
page (at call `K`), the loop terminates — any fuel beyond `K` returns —
accumulating the pages' offer ids in page order.  (seller.py's
`get_offer_ids` instead stops only when the reported total equals the
accumulated count, so the cursor contract alone does not bound it.) -/
theorem c10_market_pagination_terminates (f : String → Page) (K : Nat)
    (hK : (f (cursorChain f K)).nextPageToken = "")
    (hlt : ∀ j, j < K → (f (cursorChain f j)).nextPageToken ≠ "") :
    ∀ fuel, K < fuel →
      market_get_offer_ids f fuel
        = some (((List.range' 0 (K + 1)).map
            (fun i => (f (cursorChain f i)).entries)).flatten) := by
  intro fuel hf
  have h := market_fetch_run f K hK hlt K 0 (by omega) fuel hf []
  rw [show cursorChain f 0 = "" from rfl] at h
  unfold market_get_offer_ids
  rw [h]
  simp

/-- Witness for the amended C10 on the two-page demonstration catalog. -/
theorem c10_market_pagination_terminates_witness :
    market_get_offer_ids demoCatalog 2 = some ["a", "b", "c"] := by
  have h := c10_market_pagination_terminates demoCatalog 1 (by decide)
    (by
      intro j hj
      have hj0 : j = 0 := by omega
      subst hj0
      decide) 2 (by omega)
  rw [h]
  decide
